import Mathlib

/-!
# Verification of the group-assignment algorithm (`src/algorithm/src/algorithm.ts`)

This file gives a shallow embedding of the core of the repository's
group-assignment algorithm and proves (or refutes) the frozen claims about it.

Modelling conventions, matched against the TypeScript source:

* A JavaScript object used as a string-keyed dictionary is modelled as an
  association list (`List (String × _)`); `List.lookup` returns the binding
  for a key exactly as property access does, and a missing key is `none`
  (JS `undefined`).
* Code paths that dereference a possibly-`undefined` value (a JS
  `TypeError`) are modelled with `Option`: `none` is the crash.
* JS numbers that can be `NaN`/`Infinity` in the paths we model are given
  dedicated representations (`Option Nat`/`Option Int` where only
  "comparison with this value is always false" matters, the `JSNum` type
  where the favorability metric can produce `NaN` or `Infinity`).
* `_.shuffle` (the per-trial random processing order) is a parameter
  (`userOrder`), and the randomized tie-break inside `getUGRanking`
  (`_.sample([-1, 1])` inside a sort comparator) makes that ranking
  nondeterministic, so the Phase-A engine is parametrized by the sequence of
  rankings the calls return (`oracle : Nat → List Nat`); theorems about the
  engine quantify over every such sequence, which covers every outcome of
  the randomness.
* `Array.prototype.sort`/lodash `sortBy` with a consistent comparator are
  modelled by a stable insertion sort (`sortByLe`); lodash `sortBy` is a
  stable ascending sort by the tuple of iteratee keys.
-/

namespace Outie

/-- Identities are strings (`type Username = string`). -/
abbrev Username := String

/-- A group is an ordered list of member identities (`type Group = Username[]`). -/
abbrev Group := List Username

/-- The preference map (`interface Preferences`): a JS object mapping a
username to their list of chosen friends, modelled as an association list. -/
abbrev Preferences := List (Username × List Username)

/-- The per-user detail record (`interface UserDetails` values); only the
fields the algorithm core reads are kept. -/
structure UserRec where
  isMale : Bool
  grade : String
deriving Repr, DecidableEq

/-- The user-detail map (`interface UserDetails`), an association list keyed
by username, as the JS object is. -/
abbrev UserDetails := List (Username × UserRec)

/-- `const MOVE_ON_COUNT = 100`, the Phase-A restart ceiling. -/
def MOVE_ON_COUNT : Nat := 100

/-- JS character-list test that `s` ends with `suffix` (models
`String.prototype.endsWith` as used by `getMultiplier`). -/
def charListEndsWith (s suffix : List Char) : Bool :=
  go s.reverse suffix.reverse
where
  go : List Char → List Char → Bool
    | _, [] => true
    | [], _ :: _ => false
    | a :: as, b :: bs => a == b && go as bs

/--
`getMultiplier` from the source: the number of people a username stands for,
decoded from the `--x5` … `--x2` suffix, defaulting to 1.
-/
def getMultiplier (username : Username) : Nat :=
  if charListEndsWith username.data "--x5".data then 5
  else if charListEndsWith username.data "--x4".data then 4
  else if charListEndsWith username.data "--x3".data then 3
  else if charListEndsWith username.data "--x2".data then 2
  else 1

/-- `getAllMultiplier`: `usernames.reduce((sum, u) => sum + getMultiplier(u), 0)`. -/
def getAllMultiplier (usernames : List Username) : Nat :=
  usernames.foldl (fun sum u => sum + getMultiplier u) 0

/-- `groupWithNew`: copy a group and append a new member. -/
def groupWithNew (group : Group) (member : Username) : Group :=
  group ++ [member]

/--
`canTryJoiningGroup`: no member of the group forms a `__`-joined
anti-preference pair with the candidate, in either order.  The JS loop
returns `false` at the first conflicting member.
-/
def canTryJoiningGroup (antiPreferences : List String) (group : Group) (username : Username) : Bool :=
  group.all fun gm =>
    ¬ antiPreferences.contains (gm ++ "__" ++ username)
      && ¬ antiPreferences.contains (username ++ "__" ++ gm)

/--
A capacity in the source is a JS number that can also be `undefined`
(an out-of-bounds `groupSizes[j]`) or `Infinity` (the relaxed Phase-B
passes).  The only operation performed on it is `amount > cap`, which is
`false` both for `undefined` (NaN comparison) and for `Infinity`, so both
are modelled as `none`.
-/
def capExceeded (cap : Option Nat) (amount : Nat) : Bool :=
  match cap with
  | none => false
  | some c => c < amount

/--
`hasMaximum`: whether a group has overflowed a total cap or a same-gender
cap.  The loop sums weighted totals, reading `users[group[i]].isMale`;
a member missing from the detail map is a JS `TypeError`, hence `Option`.
In one-gender mode only the total cap is checked; otherwise the same-gender
check comes first (`currentAmountSame > maxAmountSame || currentAmount > maxAmount`).
-/
def hasMaximum (group : Group) (isMale : Bool) (maxAmount maxAmountSame : Option Nat)
    (oneGender : Bool) (users : UserDetails) : Option Bool :=
  go group 0 0
where
  go : Group → Nat → Nat → Option Bool
    | [], currentAmount, currentAmountSame =>
      if oneGender then
        some (capExceeded maxAmount currentAmount)
      else
        some (capExceeded maxAmountSame currentAmountSame || capExceeded maxAmount currentAmount)
    | gm :: rest, currentAmount, currentAmountSame =>
      match List.lookup gm users with
      | none => none
      | some r =>
        go rest (currentAmount + getMultiplier gm)
          (if r.isMale == isMale then currentAmountSame + getMultiplier gm else currentAmountSame)

/--
`getUGScore`: how much `member` likes `group` — the multiplier-weighted
count of group members on `member`'s preference list.  The JS body runs
`preferences[member].includes(groupMember)` for each group member, so a
candidate with no preference entry crashes (`TypeError`) unless the group
is empty; `none` models the crash.
-/
def getUGScore (preferences : Preferences) (group : Group) (member : Username) : Option Nat :=
  go group 0
where
  go : Group → Nat → Option Nat
    | [], score => some score
    | gm :: rest, score =>
      match List.lookup member preferences with
      | none => none
      | some friends =>
        go rest (score + if friends.contains gm then getMultiplier gm else 0)

/--
`getGUScore`: how much `group` accepts `member` — the sum over group members
whose own preference list contains `member` of
`getMultiplier(member) * getMultiplier(groupMember)`.  Dereferences every
group member's preference entry, hence `Option`.
-/
def getGUScore (preferences : Preferences) (group : Group) (member : Username) : Option Nat :=
  go group 0
where
  go : Group → Nat → Option Nat
    | [], score => some score
    | gm :: rest, score =>
      match List.lookup gm preferences with
      | none => none
      | some friends =>
        go rest (score + if friends.contains member then getMultiplier member * getMultiplier gm else 0)

/-- Stable insertion into a sorted list: `x` is placed before the first
element `y` with `le x y`; with a `≤`-style `le` this is the standard stable
insertion. -/
def insertLe {α : Type} (le : α → α → Bool) (x : α) : List α → List α
  | [] => [x]
  | y :: ys => if le x y then x :: y :: ys else y :: insertLe le x ys

/-- Stable insertion sort; models lodash `sortBy` (stable, ascending) and
`Array.prototype.sort` with a consistent comparator. -/
def sortByLe {α : Type} (le : α → α → Bool) (l : List α) : List α :=
  l.foldr (insertLe le) []

/--
The `getGURanking` sort comparator, as a `≤`-style test on
`(username, score, original index)` entries: ties on score are ordered by
ascending original index (`a.index - b.index`), otherwise by descending
score (`b.score - a.score`).  The comparator is a total order because the
indices are distinct, so any correct sort returns the JS result.
-/
def guRankLe (a b : Username × Nat × Nat) : Bool :=
  if a.2.1 = b.2.1 then a.2.2 ≤ b.2.2 else b.2.1 < a.2.1

/-- The score-building loop of `getGURanking`
(`scores.push({ username, score, index })`): each member of `l` (a suffix
of the scored group, whose first element has position `i`) is scored
against the whole group `G` with `getGUScore`. -/
def rankEntries (preferences : Preferences) (G : Group) :
    Nat → List Username → Option (List (Username × Nat × Nat))
  | _, [] => some []
  | i, u :: rest =>
    match getGUScore preferences G u with
    | none => none
    | some s =>
      match rankEntries preferences G (i + 1) rest with
      | none => none
      | some es => some ((u, s, i) :: es)

/--
`getGURanking`: the group's ranking of its own members, most accepted
first; each member is scored with `getGUScore` (which can crash when a
member has no preference entry), then the entries are sorted by the
deterministic comparator and projected back to usernames. -/
def getGURanking (preferences : Preferences) (group : Group) : Option (List Username) :=
  match rankEntries preferences group 0 group with
  | none => none
  | some scores => some ((sortByLe guRankLe scores).map Prod.fst)

/--
The shared read-only inputs of one trial: the resolved preference map,
anti-preference list and user map, plus the parsed group-size schedule and
the one-gender flag (global configuration in the source).
-/
structure Ctx where
  preferences : Preferences
  antiPreferences : List String
  users : UserDetails
  groupSizes : List Nat
  oneGenderGroups : Bool

/--
The Phase-A eviction loop (`for (let k = guRanked.length - 1; k >= 0; k--)`)
on the *reversed* group list: walk members from the least-accepted end,
remove each member of the same gender as the newly added user and
accumulate their weight, stopping at the first member whose removal makes
the accumulated weight reach the new user's own weight
(`currentRemovedUsers >= getMultiplier(username)`).

Returns `(remaining members in reversed order, removed members, whether the
stopping member was the new user itself)`.  An exhausted walk (unreachable
in real states, since the new user is their own gender) falls through with
no self-eviction, as the JS loop does.  Reading a member missing from the
user map is a crash (`none`).
-/
def evictRev (users : UserDetails) (targetMale : Bool) (newUser : Username) (need : Nat) :
    List Username → Nat → Option (List Username × List Username × Bool)
  | [], _acc => some ([], [], false)
  | v :: rest, acc =>
    match List.lookup v users with
    | none => none
    | some r =>
      if r.isMale == targetMale then
        let acc' := acc + getMultiplier v
        if need ≤ acc' then some (rest, [v], v == newUser)
        else
          match evictRev users targetMale newUser need rest acc' with
          | none => none
          | some (rem, removed, selfEv) => some (rem, v :: removed, selfEv)
      else
        match evictRev users targetMale newUser need rest acc with
        | none => none
        | some (rem, removed, selfEv) => some (v :: rem, removed, selfEv)

/--
The body of Phase A's `ugRankLoop`: walk the ranked group indices for
`username`.  For the first index whose group has no exclusion conflict, add
the user (`groupWithNew` + `getGURanking` re-rank), mark them placed, and
check capacity with the group's own target size and half that size
(floored) as the same-gender cap.  On overflow run the eviction loop; if
the newly added user was itself evicted the attempt failed and the walk
continues with the next ranked index, otherwise the placement succeeded.
Returns `(groups, placed, whether a successful placement set
hasUpdatedThisLoop)`; a walk that runs out of indices leaves the user
unplaced (but keeps any state changes made by self-evicting attempts).
An out-of-range group index is a crash, as `groups[id]` would be
`undefined`.
-/
def tryPlace (C : Ctx) (username : Username) :
    List Nat → List Group → List Username → Option (List Group × List Username × Bool)
  | [], groups, placed => some (groups, placed, false)
  | groupID :: rest, groups, placed =>
    match groups.get? groupID with
    | none => none
    | some g =>
      if ¬ canTryJoiningGroup C.antiPreferences g username then
        tryPlace C username rest groups placed
      else
        match getGURanking C.preferences (groupWithNew g username) with
        | none => none
        | some guRanked =>
          let groups1 := groups.set groupID guRanked
          let placed1 := placed ++ [username]
          match List.lookup username C.users with
          | none => none
          | some user =>
            let cap := C.groupSizes.get? groupID
            match hasMaximum guRanked user.isMale cap (cap.map (· / 2)) C.oneGenderGroups C.users with
            | none => none
            | some false => some (groups1, placed1, true)
            | some true =>
              match evictRev C.users user.isMale username (getMultiplier username) guRanked.reverse 0 with
              | none => none
              | some (remRev, removed, selfEv) =>
                let groups2 := groups1.set groupID remRev.reverse
                let placed2 := placed1.filter (fun p => ¬ removed.contains p)
                if selfEv then tryPlace C username rest groups2 placed2
                else some (groups2, placed2, true)

/--
One full Phase-A pass over the processing order (`for (let i = 0; ...)`
without the restart): already-placed users are skipped (`continue`, which
also skips the restart check at the bottom of the loop body), every other
user consumes one ranking from the oracle (one `getUGRanking` call) and
runs the ranked-group walk.  Returns
`(groups, placed, hasUpdatedThisLoop, next oracle counter, whether the
final user of the order actually reached the restart check)` — the JS
`continue` for an already-placed final user skips that check.
-/
def phaseAPass (C : Ctx) (oracle : Nat → List Nat) :
    List Username → Nat → List Group → List Username → Bool →
    Option (List Group × List Username × Bool × Nat × Bool)
  | [], ctr, groups, placed, upd => some (groups, placed, upd, ctr, false)
  | [u], ctr, groups, placed, upd =>
    if placed.contains u then some (groups, placed, upd, ctr, false)
    else
      match tryPlace C u (oracle ctr) groups placed with
      | none => none
      | some (g', p', success) => some (g', p', upd || success, ctr + 1, true)
  | u :: v :: rest, ctr, groups, placed, upd =>
    if placed.contains u then phaseAPass C oracle (v :: rest) ctr groups placed upd
    else
      match tryPlace C u (oracle ctr) groups placed with
      | none => none
      | some (g', p', success) => phaseAPass C oracle (v :: rest) (ctr + 1) g' p' (upd || success)

/--
The Phase-A outer loop with its restart rule: after a full pass, restart
from the beginning of the order (`i = -1`) whenever the final user reached
the check, not every user of the order is placed
(`placedUsers.length < userOrder.length`), the pass changed state
(`hasUpdatedThisLoop`), and `currentLoopAmounts < MOVE_ON_COUNT`.  The
remaining restart `budget` stands for `MOVE_ON_COUNT - currentLoopAmounts`,
so the source's counter reaching the ceiling is `budget = 0`; `run` starts
with `budget = MOVE_ON_COUNT`.  Returns the final groups, the placed list
and the number of full passes executed.
-/
def phaseALoop (C : Ctx) (oracle : Nat → List Nat) (order : List Username) :
    Nat → Nat → List Group → List Username → Option (List Group × List Username × Nat)
  | 0, ctr, groups, placed =>
    match phaseAPass C oracle order ctr groups placed false with
    | none => none
    | some (g', p', _upd, _ctr', _last) => some (g', p', 1)
  | budget + 1, ctr, groups, placed =>
    match phaseAPass C oracle order ctr groups placed false with
    | none => none
    | some (g', p', upd, ctr', last) =>
      if last && decide (p'.length < order.length) && upd then
        match phaseALoop C oracle order budget ctr' g' p' with
        | none => none
        | some (g2, p2, passes) => some (g2, p2, passes + 1)
      else
        some (g', p', 1)

/--
A JavaScript value, as far as the Phase-B tie-break key needs one: the
source passes the whole lodash `_.zip` pair `[group, groupSize]` (an array
holding an array and a number) to `getUGScore` as its `group` argument, so
the scored "members" are one array and one number instead of usernames.
-/
inductive JSVal where
  | str : String → JSVal
  | num : Int → JSVal
  | arr : List JSVal → JSVal

/-- `Array.prototype.includes` on a string list compares with `===`, so a
non-string value is never found. -/
def jsIncludes (l : List String) (v : JSVal) : Bool :=
  match v with
  | .str s => l.contains s
  | _ => false

/-- `getMultiplier` applied to a JS value; the non-string branches are dead
code here because `jsIncludes` has already returned `false` for them. -/
def jsMultiplier (v : JSVal) : Nat :=
  match v with
  | .str s => getMultiplier s
  | _ => 0

/--
The second Phase-B sort iteratee, exactly as the source computes it: if the
candidate has no preference entry the iteratee returns 0; otherwise it
returns `getUGScore(preferences, groupZip, candidate)` where `groupZip` is
the *zip pair* `[group, size]`, i.e. the loop of `getUGScore` runs over the
two JS values `[group-array, size-number]` (with the candidate's existing
preference entry dereferenced at each step, so no crash is possible).
Since `includes` never matches an array or a number, this key is 0 on
every input — the intended "number of friends" tie-break never happens.
-/
def phaseBTieKey (preferences : Preferences) (u : Username) (pair : Group × Nat) : Nat :=
  match List.lookup u preferences with
  | none => 0
  | some friends =>
    [JSVal.arr (pair.1.map JSVal.str), JSVal.num (pair.2 : Int)].foldl
      (fun score v => score + if jsIncludes friends v then jsMultiplier v else 0) 0

/-- The lexicographic Phase-B sort key: current weighted size minus the
group's own target size (`getAllMultiplier(groupZip[0]) - groupZip[1]`),
then the (degenerate) tie-break key. -/
def phaseBKey (preferences : Preferences) (u : Username) (pair : Group × Nat) : Int × Nat :=
  ((getAllMultiplier pair.1 : Int) - (pair.2 : Int), phaseBTieKey preferences u pair)

/-- `≤`-style comparison of zipped-and-indexed Phase-B entries by their key
tuple, ties kept in original order (lodash `sortBy` is stable and
ascending). -/
def phaseBLe (preferences : Preferences) (u : Username) (a b : (Group × Nat) × Nat) : Bool :=
  let ka := phaseBKey preferences u a.1
  let kb := phaseBKey preferences u b.1
  if ka.1 < kb.1 then true
  else if kb.1 < ka.1 then false
  else if ka.2 < kb.2 then true
  else if kb.2 < ka.2 then false
  else true

/--
The Phase-B group order for one candidate
(`_.sortBy(_.zip(groups, groupSizes), [...])`), as the list of *original
group indices* in sorted order: the source sorts an array of references
and later mutates the chosen element in place, which in a functional
setting is an update at the original index.
-/
def phaseBSortedIndices (preferences : Preferences) (u : Username)
    (groups : List Group) (groupSizes : List Nat) : List Nat :=
  (sortByLe (phaseBLe preferences u)
      ((groups.zip groupSizes).zip (List.range (min groups.length groupSizes.length)))).map (·.2)

/--
The triple scan of Phase B
(`for (let j = 0; j < sizeSortedGroups.length * 3; j++)`): the group tried
at step `j` is the one at sorted position `j % len`, while the capacity
caps are read off `groupSizes[j]` with the *unreduced* index `j` —
in pass 1 (`j < len`) that is the `j`-th largest target size rather than
the tried group's own size, and in pass 2 (`len ≤ j < 2·len`)
`groupSizes[j]` is out of bounds (`undefined`), so the "total size only"
check compares against `undefined` and never triggers.  Exclusion
conflicts are checked in every pass; the first group that passes the
checks receives the candidate (appended in place).
-/
def phaseBScan (C : Ctx) (u : Username) (sortedIdx : List Nat) (len : Nat) :
    List Nat → List Group → Option (List Group)
  | [], groups => some groups
  | j :: js, groups =>
    let effectiveGenderSize : Option Nat := if j < len then (C.groupSizes.get? j).map (· / 2) else none
    let effectiveGroupSize : Option Nat := if j < 2 * len then C.groupSizes.get? j else none
    match sortedIdx.get? (j % len) with
    | none => none
    | some gidx =>
      match groups.get? gidx with
      | none => none
      | some g =>
        if ¬ canTryJoiningGroup C.antiPreferences g u then phaseBScan C u sortedIdx len js groups
        else
          match List.lookup u C.users with
          | none => none
          | some user =>
            match hasMaximum g user.isMale effectiveGroupSize effectiveGenderSize C.oneGenderGroups C.users with
            | none => none
            | some true => phaseBScan C u sortedIdx len js groups
            | some false => some (groups.set gidx (g ++ [u]))

/--
Phase B (`allUsernamesLoop`): every identity in the full universe that
Phase A did not place is attempted against the sorted group list with the
three-pass scan; the placed set is *not* updated here (each universe entry
is visited once).
-/
def phaseB (C : Ctx) (placed : List Username) :
    List Username → List Group → Option (List Group)
  | [], groups => some groups
  | u :: rest, groups =>
    if placed.contains u then phaseB C placed rest groups
    else
      let sortedIdx := phaseBSortedIndices C.preferences u groups C.groupSizes
      match phaseBScan C u sortedIdx sortedIdx.length (List.range (3 * sortedIdx.length)) groups with
      | none => none
      | some groups' => phaseB C placed rest groups'

/-- One trial's result: the groups plus the inputs echoed back
(`{ groups, preferences, users, details }`); the detail metadata is the
size schedule and the group count. -/
structure RunResult where
  groups : List Group
  preferences : Preferences
  groupSizes : List Nat
  groupAmount : Nat
deriving Repr, DecidableEq

/--
One trial (`run`): groups start empty, one per schedule entry; Phase A
places preference-listing users from the randomized `userOrder` with
restarts; Phase B sweeps the full universe (`Object.keys(users)`, i.e. the
user map's key order).
-/
def run (C : Ctx) (userOrder : List Username) (oracle : Nat → List Nat) : Option RunResult :=
  let groups0 : List Group := C.groupSizes.map (fun _ => ([] : Group))
  match phaseALoop C oracle userOrder MOVE_ON_COUNT 0 groups0 [] with
  | none => none
  | some (g1, placed1, _passes) =>
    match phaseB C placed1 (C.users.map Prod.fst) g1 with
    | none => none
    | some g2 => some ⟨g2, C.preferences, C.groupSizes, C.groupSizes.length⟩

/-- A JavaScript number as produced by the statistics: a finite rational,
one of the infinities, or `NaN`. -/
inductive JSNum where
  | fin : ℚ → JSNum
  | inf : JSNum
  | neginf : JSNum
  | nan : JSNum
deriving Repr, DecidableEq

/-- The guarded friendship test of `getPercentFavorability`:
`preferences[x] && preferences[x].includes(y)` (a missing entry counts as
no friendship, without crashing). -/
def favHit (preferences : Preferences) (x y : Username) : Bool :=
  match List.lookup x preferences with
  | some friends => friends.contains y
  | none => false

/-- The double loop of `getPercentFavorability`: over all ordered position
pairs of the group, the multiplier-weighted friendship hits. -/
def favNumerator (group : Group) (preferences : Preferences) : Nat :=
  (group.map fun x =>
    (group.map fun y =>
      if favHit preferences x y then getMultiplier x * getMultiplier y else 0).sum).sum

/--
`getPercentFavorability`: 1 for an empty group, otherwise the weighted
friendship count divided by `(total-weight − 1)² · 2`.  A group of total
weight 1 makes the denominator 0, which in JS yields `NaN` (0/0) or
`Infinity` (positive/0) rather than a number in [0,1].
-/
def getPercentFavorability (group : Group) (preferences : Preferences) : JSNum :=
  if group.length = 0 then JSNum.fin 1
  else
    let N := favNumerator group preferences
    let S : Int := (getAllMultiplier group : Int)
    let D : Int := (S - 1) * (S - 1) * 2
    if D = 0 then (if N = 0 then JSNum.nan else JSNum.inf)
    else JSNum.fin ((N : ℚ) / (D : ℚ))

/-- JS `<` against the running minimum of `getMinFriends`, whose initial
value is `Infinity` (modelled as `none`): any count beats `Infinity`. -/
def ltRunningMin (c : Nat) (cur : Option Nat) : Bool :=
  match cur with
  | none => true
  | some m => c < m

/--
`getMinFriends`: scan every group member who has a preference entry, count
the positions of their group holding one of their listed friends, and keep
the minimum count (starting from `Infinity = none`) together with every
user achieving it — the `===` push happens before the `<` reset, exactly
as in the source.
-/
def getMinFriends (groups : List Group) (preferences : Preferences) :
    Option Nat × List Username :=
  groups.foldl
    (fun st group =>
      group.foldl
        (fun st u =>
          match List.lookup u preferences with
          | none => st
          | some friends =>
            let c := (group.filter (fun v => friends.contains v)).length
            let st1 := if st.1 = some c then (st.1, st.2 ++ [u]) else st
            if ltRunningMin c st1.1 then (some c, [u]) else st1)
        st)
    (none, [])

/-- The genuine JS `<` on statistic values: `false` whenever either side is
`NaN`. -/
def jsNumLt (a b : JSNum) : Bool :=
  match a, b with
  | .nan, _ => false
  | _, .nan => false
  | .neginf, .neginf => false
  | .neginf, _ => true
  | .fin x, .fin y => x < y
  | .fin _, .inf => true
  | .fin _, .neginf => false
  | .inf, _ => false

/-- lodash `_.min`: fold with `<`, never adopting `NaN` (a value with
`value !== value` is skipped), `undefined` (`none`) on an empty or all-`NaN`
list. -/
def jsMinList (l : List JSNum) : Option JSNum :=
  l.foldl
    (fun cur v =>
      match cur with
      | none => match v with | .nan => none | _ => some v
      | some c => if jsNumLt v c then some v else some c)
    none

/-- JS unary negation on a statistic value. -/
def jsNeg (v : JSNum) : JSNum :=
  match v with
  | .fin q => .fin (-q)
  | .inf => .neginf
  | .neginf => .inf
  | .nan => .nan

/--
The three `runMany` sort iteratees for one trial result, in order:
the raw `minFriends` value (`none` = `Infinity`), the number of users tied
at that minimum, and the *negated* minimum group favorability
(negated so that the ascending sort puts the highest minimum favorability
first; `-undefined` is `NaN`).  Note the first key is **not** negated.
-/
def resultKey (r : RunResult) : Option Nat × Nat × JSNum :=
  let mf := getMinFriends r.groups r.preferences
  let favs := r.groups.map (fun g => getPercentFavorability g r.preferences)
  (mf.1, mf.2.length,
    match jsMinList favs with
    | none => JSNum.nan
    | some v => jsNeg v)

/-- JS `<` on the first key, where `none` stands for the number
`Infinity`. -/
def optNatLtInf (a b : Option Nat) : Bool :=
  match a, b with
  | some x, some y => x < y
  | some _, none => true
  | none, _ => false

/-- lodash `compareAscending` as a strict order on statistic values:
numbers ascend (with the infinities in their numeric places) and `NaN`
sorts after everything. -/
def jsNumLtAsc (a b : JSNum) : Bool :=
  match a, b with
  | .neginf, .neginf => false
  | .neginf, _ => true
  | .fin x, .fin y => x < y
  | .fin _, .inf => true
  | .fin _, .nan => true
  | .fin _, .neginf => false
  | .inf, .nan => true
  | .inf, _ => false
  | .nan, _ => false

/-- `≤`-style lexicographic comparison of two trial results by their
`runMany` key tuples, ties kept stable. -/
def resultLe (a b : RunResult) : Bool :=
  let ka := resultKey a
  let kb := resultKey b
  if optNatLtInf ka.1 kb.1 then true
  else if optNatLtInf kb.1 ka.1 then false
  else if ka.2.1 < kb.2.1 then true
  else if kb.2.1 < ka.2.1 then false
  else if jsNumLtAsc ka.2.2 kb.2.2 then true
  else if jsNumLtAsc kb.2.2 ka.2.2 then false
  else true

/--
The selection step of `runMany`:
`_.sortBy(results, [minFriends, tiedCount, -minFavorability])[0]` — the
first element of the *ascending* stable sort by the key tuple.
-/
def bestResult (results : List RunResult) : Option RunResult :=
  (sortByLe resultLe results).head?

/-- JS whitespace accepted by `parseInt` before the number. -/
def isJsSpace (c : Char) : Bool :=
  c == ' ' || c == '\t' || c == '\n' || c == '\r'

/-- Decimal digit value. -/
def digitVal (c : Char) : Option Nat :=
  if '0' ≤ c ∧ c ≤ '9' then some (c.toNat - '0'.toNat) else none

/-- The maximal leading digit run, `none` when it is empty (`parseInt`'s
`NaN`). -/
def parseNatPrefix : List Char → Option Nat
  | [] => none
  | c :: rest =>
    match digitVal c with
    | none => none
    | some d => some (go rest d)
where
  go : List Char → Nat → Nat
    | [], acc => acc
    | c :: rest, acc =>
      match digitVal c with
      | none => acc
      | some d => go rest (acc * 10 + d)

/--
JS `parseInt(token)` on a schedule token (decimal: the tokens come from
splitting on `-`, so no radix prefixes are in play): skip leading
whitespace, take an optional sign and the maximal digit prefix; `none` is
`NaN`.
-/
def parseIntJS (cs : List Char) : Option Int :=
  match cs.dropWhile isJsSpace with
  | '-' :: rest => (parseNatPrefix rest).map (fun n => -(n : Int))
  | '+' :: rest => (parseNatPrefix rest).map (fun n => (n : Int))
  | other => (parseNatPrefix other).map (fun n => (n : Int))

/-- `String.prototype.split('-')`. -/
def splitDash : List Char → List (List Char)
  | [] => [[]]
  | c :: rest =>
    if c = '-' then [] :: splitDash rest
    else
      match splitDash rest with
      | [] => [[c]]
      | t :: ts => (c :: t) :: ts

/-- The descending comparator `(a, b) => b - a` of `getGroupSizes` as a
`≤`-style test; a comparison involving `NaN` returns `NaN`, which the sort
treats as 0 (keep the original relative order). -/
def sizeDescLe (a b : Option Int) : Bool :=
  match a, b with
  | some x, some y => y ≤ x
  | _, _ => true

/--
`getGroupSizes`: split the schedule argument on `-`, `parseInt` each token
and sort descending.  A non-numeric token becomes `NaN` (`none`) and stays
in the returned size list — nothing fails fast.
-/
def getGroupSizes (argument : String) : List (Option Int) :=
  sortByLe sizeDescLe ((splitDash argument.data).map parseIntJS)

/-- The user universe of the C2 failing input: the first group holds five
males and three females (own target 10), the second six males (own target
9), and the male candidate `c` is unplaced. -/
def c2users : UserDetails :=
  [("b1", ⟨true, "g"⟩), ("b2", ⟨true, "g"⟩), ("b3", ⟨true, "g"⟩), ("b4", ⟨true, "g"⟩),
   ("b5", ⟨true, "g"⟩), ("b6", ⟨false, "g"⟩), ("b7", ⟨false, "g"⟩), ("b8", ⟨false, "g"⟩),
   ("a1", ⟨true, "g"⟩), ("a2", ⟨true, "g"⟩), ("a3", ⟨true, "g"⟩), ("a4", ⟨true, "g"⟩),
   ("a5", ⟨true, "g"⟩), ("a6", ⟨true, "g"⟩), ("c", ⟨true, "g"⟩)]

/-- The groups of the C2 failing input, in schedule order. -/
def c2groups : List Group :=
  [["b1", "b2", "b3", "b4", "b5", "b6", "b7", "b8"], ["a1", "a2", "a3", "a4", "a5", "a6"]]

/-- A canned trial result whose worst-served preference-holder (`a`) has 3
friends in their group. -/
def resultMin3 : RunResult :=
  ⟨[["a", "b", "c", "d", "e"]],
   [("a", ["b", "c", "d"]), ("b", ["a", "c", "d", "e"]), ("c", ["a", "b", "d", "e"]),
    ("d", ["a", "b", "c", "e"]), ("e", ["a", "b", "c", "d"])],
   [5], 1⟩

/-- A canned trial result whose worst-served preference-holder (`a`) has 2
friends in their group; otherwise like `resultMin3`. -/
def resultMin2 : RunResult :=
  ⟨[["a", "b", "c", "d", "e"]],
   [("a", ["b", "c"]), ("b", ["a", "c", "d", "e"]), ("c", ["a", "b", "d", "e"]),
    ("d", ["a", "b", "c", "e"]), ("e", ["a", "b", "c", "d"])],
   [5], 1⟩

/--
The Phase-A state invariant: no identity occurs twice across the groups
(flattened, no duplicates) and every currently grouped identity is in the
placed list.
-/
def EngineInv (groups : List Group) (placed : List Username) : Prop :=
  groups.flatten.Nodup ∧ ∀ v ∈ groups.flatten, v ∈ placed

/-! ## Theorems -/

theorem insertLe_perm {α : Type} (le : α → α → Bool) (x : α) :
    ∀ l : List α, (insertLe le x l).Perm (x :: l)
  | [] => List.Perm.refl _
  | y :: ys => by
    simp only [insertLe]
    by_cases h : le x y = true
    · simp [h]
    · simp only [h, if_neg]
      exact ((insertLe_perm le x ys).cons y).trans (List.Perm.swap x y ys)


theorem sortByLe_perm {α : Type} (le : α → α → Bool) :
    ∀ l : List α, (sortByLe le l).Perm l
  | [] => List.Perm.refl _
  | x :: xs => by
    simp only [sortByLe, List.foldr]
    exact ((insertLe_perm le x _).trans ((sortByLe_perm le xs).cons x))


/-! ## Scoring: `getUGScore` (C5) -/

theorem getUGScore_go_some (preferences : Preferences) (member : Username)
    (friends : List Username) (h : List.lookup member preferences = some friends) :
    ∀ (l : Group) (acc : Nat),
      getUGScore.go preferences member l acc =
        some (acc + (l.map fun gm => if friends.contains gm then getMultiplier gm else 0).sum)
  | [], acc => by simp [getUGScore.go]
  | gm :: rest, acc => by
    simp only [getUGScore.go, h, List.map_cons, List.sum_cons]
    rw [getUGScore_go_some preferences member friends h rest]
    congr 1
    omega

/--
C5 (amended): `getUGScore` sums `getMultiplier` over the group members on
the candidate's preference list; a candidate with **no** preference entry
gets a result only when the group is empty (score 0) — for a non-empty
group the missing entry is dereferenced and the call crashes (`none`), so
callers must guard.
-/
theorem getUGScore_characterization (preferences : Preferences) (group : Group) (member : Username) :
    getUGScore preferences group member =
      match List.lookup member preferences with
      | some friends => some ((group.map fun gm => if friends.contains gm then getMultiplier gm else 0).sum)
      | none => if group.isEmpty then some 0 else none := by
  cases h : List.lookup member preferences with
  | none => cases group <;> simp [getUGScore, getUGScore.go, h]
  | some friends => simp [getUGScore, getUGScore_go_some preferences member friends h]

/--
C5 (counterexample): a candidate with no preference entry facing a
non-empty group does **not** get the score 0 — the lookup crashes.
-/
theorem getUGScore_absent_crash :
    getUGScore [] ["x"] "c" = none ∧ getUGScore [] ["x"] "c" ≠ some 0 := by decide

/-! ## Schedule parsing (C9) -/

/--
C9: a malformed schedule token is *not* rejected: `parseInt` turns it into
`NaN` (`none`) and `getGroupSizes` returns it inside the size list instead
of failing fast.
-/
theorem getGroupSizes_keeps_nan :
    getGroupSizes "30-abc-20" = [some 30, none, some 20] ∧
    (getGroupSizes "30-abc-20").contains none = true := by decide

/-! ## Phase B sort order (C3) -/

/--
C3 (counterexample): two groups tied on fill deficit stay in their original
order even though the candidate's real `getUGScore` against the second
group is higher — the tie-break iteratee scores the zip pair, which is
always 0, so the claimed score-descending tie-break never happens.
-/
theorem phaseBSortedIndices_tie_ignores_score :
    phaseBSortedIndices [("c", ["b"])] "c" [["a"], ["b"]] [2, 2] = [0, 1] ∧
    getUGScore [("c", ["b"])] ["b"] "c" = some 1 ∧
    getUGScore [("c", ["b"])] ["a"] "c" = some 0 ∧
    phaseBTieKey [("c", ["b"])] "c" (["a"], 2) = 0 ∧
    phaseBTieKey [("c", ["b"])] "c" (["b"], 2) = 0 := by decide

/-! ## Phase B capacity passes (C2) -/

/--
C2: on the failing input, the fallback pass places `c` into the
*second* group — blocked under its own caps (6 males > ⌊9/2⌋) and never
admissible under the claimed pass semantics — because pass 1 reads the
caps at the sorted position from the descending size list and pass 2's
total cap is the out-of-bounds `groupSizes[j]` (`undefined`), which blocks
nothing.  Under the claimed semantics the first group (within its own
total cap of 10 and gender cap of 5) would have received `c`.
The conjuncts record: the sorted order tried, the own-cap verdicts of both
groups, and the final placement produced by the code.
-/
theorem phaseB_misindexed_caps :
    phaseBSortedIndices [] "c" c2groups [10, 9] = [1, 0] ∧
    hasMaximum ["a1", "a2", "a3", "a4", "a5", "a6"] true (some 9) (some 4) false c2users = some true ∧
    hasMaximum ["b1", "b2", "b3", "b4", "b5", "b6", "b7", "b8"] true (some 10) (some 5) false c2users = some false ∧
    phaseB ⟨[], [], c2users, [10, 9], false⟩ [] ["c"] c2groups =
      some [["b1", "b2", "b3", "b4", "b5", "b6", "b7", "b8"],
            ["a1", "a2", "a3", "a4", "a5", "a6", "c"]] := by decide

/-! ## Multi-trial selection (C1) -/

/--
C1: given the two canned results with `minFriends` 3 and 2, the selection
step of `runMany` picks the one with `minFriends` **2** — the ascending
sort is not negated on its first key, so taking element `[0]` minimizes
the worst-served participant's friend count instead of maximizing it.
-/
theorem bestResult_picks_smaller_minFriends :
    (getMinFriends resultMin3.groups resultMin3.preferences).1 = some 3 ∧
    (getMinFriends resultMin2.groups resultMin2.preferences).1 = some 2 ∧
    bestResult [resultMin3, resultMin2] = some resultMin2 ∧
    bestResult [resultMin2, resultMin3] = some resultMin2 := by decide

/-! ## Favorability (C6) -/

/--
C6 (counterexample): a singleton group whose member has a valid (empty)
preference entry has total weight 1, so the denominator is 0 and the
favorability is `NaN` — not a number in `[0, 1]`.
-/
theorem getPercentFavorability_singleton_nan :
    getPercentFavorability ["a"] [("a", [])] = JSNum.nan ∧
    ¬ ∃ q : ℚ, getPercentFavorability ["a"] [("a", [])] = JSNum.fin q ∧ 0 ≤ q ∧ q ≤ 1 := by
  refine ⟨by decide, ?_⟩
  rintro ⟨q, hq, -, -⟩
  rw [show getPercentFavorability ["a"] [("a", [])] = JSNum.nan from by decide] at hq
  exact JSNum.noConfusion hq

/-! ## Favorability bounds (C6, amended part) -/

theorem getMultiplier_pos (u : Username) : 1 ≤ getMultiplier u := by
  unfold getMultiplier
  repeat' split
  all_goals omega

theorem getAllMultiplier_eq_sum : ∀ l : List Username,
    getAllMultiplier l = (l.map getMultiplier).sum := by
  have key : ∀ (l : List Username) (a : Nat),
      l.foldl (fun sum u => sum + getMultiplier u) a = a + (l.map getMultiplier).sum := by
    intro l
    induction l with
    | nil => intro a; simp
    | cons x xs ih => intro a; simp only [List.foldl, List.map_cons, List.sum_cons, ih]; omega
  intro l
  simpa using key l 0

theorem favRow_le (preferences : Preferences) (x : Username) :
    ∀ l : Group,
      (l.map fun y => if favHit preferences x y then getMultiplier x * getMultiplier y else 0).sum
        ≤ getMultiplier x * (l.map getMultiplier).sum
  | [] => by simp
  | y :: t => by
    simp only [List.map_cons, List.sum_cons, Nat.mul_add]
    have h1 : (if favHit preferences x y then getMultiplier x * getMultiplier y else 0)
        ≤ getMultiplier x * getMultiplier y := by split <;> omega
    have h2 := favRow_le preferences x t
    omega

theorem favRow_mem_le (preferences : Preferences) (x : Username)
    (hx : favHit preferences x x = false) :
    ∀ l : Group, x ∈ l →
      (l.map fun y => if favHit preferences x y then getMultiplier x * getMultiplier y else 0).sum
          + getMultiplier x * getMultiplier x
        ≤ getMultiplier x * (l.map getMultiplier).sum
  | [], hmem => absurd hmem (List.not_mem_nil x)
  | y :: t, hmem => by
    simp only [List.map_cons, List.sum_cons, Nat.mul_add]
    rcases List.mem_cons.mp hmem with rfl | hmemt
    · have h2 := favRow_le preferences x t
      simp only [hx, Bool.false_eq_true, if_false]
      omega
    · have h1 : (if favHit preferences x y then getMultiplier x * getMultiplier y else 0)
          ≤ getMultiplier x * getMultiplier y := by split <;> omega
      have h2 := favRow_mem_le preferences x hx t hmemt
      omega

theorem favNumerator_le (group : Group) (preferences : Preferences)
    (hself : ∀ u ∈ group, favHit preferences u u = false) :
    favNumerator group preferences + getAllMultiplier group
      ≤ getAllMultiplier group * getAllMultiplier group := by
  have hsq : (group.map getMultiplier).sum
      ≤ (group.map fun x => getMultiplier x * getMultiplier x).sum :=
    List.sum_le_sum fun x _ => Nat.le_mul_of_pos_left _ (getMultiplier_pos x)
  have hrows : (group.map fun x =>
      (group.map fun y => if favHit preferences x y then getMultiplier x * getMultiplier y else 0).sum
        + getMultiplier x * getMultiplier x).sum
      ≤ (group.map fun x => getMultiplier x * (group.map getMultiplier).sum).sum :=
    List.sum_le_sum fun x hx => favRow_mem_le preferences x (hself x hx) group hx
  rw [List.sum_map_add] at hrows
  have hmul : (group.map fun x => getMultiplier x * (group.map getMultiplier).sum).sum
      = (group.map getMultiplier).sum * (group.map getMultiplier).sum := by
    rw [← List.sum_map_mul_right]
  rw [hmul] at hrows
  rw [getAllMultiplier_eq_sum]
  unfold favNumerator
  omega

/--
C6 (amended): favorability of the empty group is exactly 1, and for every
non-empty group of total weight at least 2 whose members' preference
entries are valid (no member's own entry lists the member itself — a
missing entry is fine), the favorability is a finite value in `[0, 1]`.
(A non-empty group of total weight 1 instead produces `NaN`, see the
counterexample.)
-/
theorem getPercentFavorability_range :
    (∀ preferences : Preferences, getPercentFavorability [] preferences = JSNum.fin 1) ∧
    ∀ (group : Group) (preferences : Preferences),
      (∀ u ∈ group, favHit preferences u u = false) →
      2 ≤ getAllMultiplier group →
      ∃ q : ℚ, getPercentFavorability group preferences = JSNum.fin q ∧ 0 ≤ q ∧ q ≤ 1 := by
  constructor
  · intro preferences; simp [getPercentFavorability]
  · intro group preferences hself hS
    have hne : group.length ≠ 0 := by
      intro h0
      rw [List.length_eq_zero.mp h0] at hS
      simp [getAllMultiplier] at hS
    set Sn := getAllMultiplier group with hSn
    set N := favNumerator group preferences with hN
    obtain ⟨T, hT⟩ : ∃ T, Sn = T + 2 := ⟨Sn - 2, by omega⟩
    have hbound : N ≤ 2 * (Sn - 1) * (Sn - 1) := by
      have h1 := favNumerator_le group preferences hself
      rw [← hSn, ← hN] at h1
      rw [hT] at h1 ⊢
      have e1 : (T + 2) * (T + 2) = T * T + 4 * T + 4 := by ring
      have e2 : 2 * (T + 2 - 1) * (T + 2 - 1) = 2 * (T * T) + 4 * T + 2 := by
        have : T + 2 - 1 = T + 1 := by omega
        rw [this]; ring
      rw [e1] at h1
      rw [e2]
      generalize T * T = TT at h1 ⊢
      omega
    have hD : ((Sn : Int) - 1) * ((Sn : Int) - 1) * 2 ≠ 0 := by
      have : (2 : Int) ≤ (Sn : Int) := by exact_mod_cast hS
      nlinarith
    refine ⟨(N : ℚ) / ((((Sn : Int) - 1) * ((Sn : Int) - 1) * 2 : Int) : ℚ), ?_, ?_, ?_⟩
    · unfold getPercentFavorability
      rw [if_neg hne, ← hSn, ← hN, if_neg hD]
    · apply div_nonneg (by positivity)
      have : (2 : Int) ≤ (Sn : Int) := by exact_mod_cast hS
      have hDpos : (0 : Int) ≤ ((Sn : Int) - 1) * ((Sn : Int) - 1) * 2 := by nlinarith
      exact_mod_cast hDpos
    · have h2 : (2 : Int) ≤ (Sn : Int) := by exact_mod_cast hS
      have hDpos : (0 : Int) < ((Sn : Int) - 1) * ((Sn : Int) - 1) * 2 := by nlinarith
      rw [div_le_one (by exact_mod_cast hDpos)]
      have hcast : ((((Sn : Int) - 1) * ((Sn : Int) - 1) * 2 : Int) : ℚ)
          = ((2 * (Sn - 1) * (Sn - 1) : Nat) : ℚ) := by
        have h1 : (1 : Nat) ≤ Sn := by omega
        push_cast [h1]
        ring
      rw [hcast]
      exact_mod_cast hbound

/--
C6 (amended, witness): the favorability of the empty group is 1, and the
mutual pair `["a", "b"]` (total weight 2, valid entries) has a finite
favorability in `[0, 1]`.
-/
theorem getPercentFavorability_range_witness :
    getPercentFavorability [] [] = JSNum.fin 1 ∧
    (∀ u ∈ (["a", "b"] : Group), favHit [("a", ["b"]), ("b", ["a"])] u u = false) ∧
    ∃ q : ℚ, getPercentFavorability ["a", "b"] [("a", ["b"]), ("b", ["a"])] = JSNum.fin q ∧
      0 ≤ q ∧ q ≤ 1 :=
  ⟨getPercentFavorability_range.1 [], by decide,
    getPercentFavorability_range.2 ["a", "b"] [("a", ["b"]), ("b", ["a"])] (by decide) (by decide)⟩

/-! ## Group-to-user ranking is a permutation (C10) -/

theorem getGUScore_go_isSome (preferences : Preferences) (member : Username) :
    ∀ (l : Group) (acc : Nat), (∀ gm ∈ l, (List.lookup gm preferences).isSome) →
      ∃ s, getGUScore.go preferences member l acc = some s
  | [], acc, _ => ⟨acc, rfl⟩
  | gm :: rest, acc, h => by
    have hgm : (List.lookup gm preferences).isSome := h gm (List.mem_cons_self gm rest)
    obtain ⟨friends, hf⟩ := Option.isSome_iff_exists.mp hgm
    obtain ⟨s, hs⟩ := getGUScore_go_isSome preferences member rest
      (acc + if friends.contains member then getMultiplier member * getMultiplier gm else 0)
      (fun x hx => h x (List.mem_cons_of_mem gm hx))
    exact ⟨s, by simp only [getGUScore.go, hf]; exact hs⟩

theorem rankEntries_some (preferences : Preferences) (G : Group)
    (h : ∀ gm ∈ G, (List.lookup gm preferences).isSome) :
    ∀ (l : List Username) (i : Nat),
      ∃ es, rankEntries preferences G i l = some es ∧ es.map Prod.fst = l
  | [], _ => ⟨[], rfl, rfl⟩
  | u :: rest, i => by
    obtain ⟨s, hs⟩ := getGUScore_go_isSome preferences u G 0 h
    obtain ⟨es, hes, hmap⟩ := rankEntries_some preferences G h rest (i + 1)
    refine ⟨(u, s, i) :: es, ?_, ?_⟩
    · simp only [rankEntries, getGUScore, hs, hes]
    · simp [hmap]

/--
C10: when every member of a group has a preference entry, `getGURanking`
returns a permutation of the group — same length, exactly the same
identities — so a re-rank never adds, drops or duplicates a member.
-/
theorem getGURanking_perm (preferences : Preferences) (group : Group)
    (h : ∀ gm ∈ group, (List.lookup gm preferences).isSome) :
    ∃ ranked, getGURanking preferences group = some ranked ∧
      ranked.Perm group ∧ ranked.length = group.length := by
  obtain ⟨es, hes, hmap⟩ := rankEntries_some preferences group h group 0
  refine ⟨(sortByLe guRankLe es).map Prod.fst, ?_, ?_, ?_⟩
  · simp only [getGURanking, hes]
  · exact hmap ▸ (sortByLe_perm guRankLe es).map Prod.fst
  · exact (hmap ▸ (sortByLe_perm guRankLe es).map Prod.fst).length_eq

/--
C10 (witness): a concrete two-member group with preference entries is
re-ranked to a permutation of itself.
-/
theorem getGURanking_perm_witness :
    ∃ ranked, getGURanking [("a", ["b"]), ("b", [])] ["a", "b"] = some ranked ∧
      ranked.Perm ["a", "b"] ∧ ranked.length = (["a", "b"] : Group).length :=
  getGURanking_perm [("a", ["b"]), ("b", [])] ["a", "b"] (by decide)

/-! ## Phase A self-eviction (C7) -/

/--
C7: whenever the eviction loop run for a placement attempt ends by
removing the newly added identity itself (whatever else it evicted
first), `tryPlace` treats the attempt at that group as failed and
continues the ranked walk with the remaining ranked groups, starting from
the post-eviction state — the identity's turn is not terminated.
-/
theorem tryPlace_self_eviction_continues (C : Ctx) (username : Username)
    (groupID : Nat) (rest : List Nat) (groups : List Group) (placed : List Username)
    (g : Group) (guRanked : List Username) (user : UserRec)
    (remRev removed : List Username)
    (hg : groups.get? groupID = some g)
    (hconf : canTryJoiningGroup C.antiPreferences g username = true)
    (hrank : getGURanking C.preferences (groupWithNew g username) = some guRanked)
    (huser : List.lookup username C.users = some user)
    (hmax : hasMaximum guRanked user.isMale (C.groupSizes.get? groupID)
        ((C.groupSizes.get? groupID).map (· / 2)) C.oneGenderGroups C.users = some true)
    (hev : evictRev C.users user.isMale username (getMultiplier username) guRanked.reverse 0
        = some (remRev, removed, true)) :
    tryPlace C username (groupID :: rest) groups placed =
      tryPlace C username rest ((groups.set groupID guRanked).set groupID remRev.reverse)
        ((placed ++ [username]).filter fun p => ¬ removed.contains p) := by
  simp only [tryPlace, hg, hconf, hrank, huser, hmax, hev, not_true, Bool.false_eq_true,
    if_false, if_true]

/--
C7 (witness): a concrete self-eviction — `b` joins the full single-slot
group `["a"]`, is ranked last, evicts itself, and the walk continues with
the (empty) remainder of the ranking, leaving the state it produced.
-/
theorem tryPlace_self_eviction_witness :
    canTryJoiningGroup ([] : List String) ["a"] "b" = true ∧
    getGURanking [("a", []), ("b", ["a"])] (groupWithNew ["a"] "b") = some ["a", "b"] ∧
    hasMaximum ["a", "b"] true (some 1) (some 0) false
      [("a", ⟨true, "g"⟩), ("b", ⟨true, "g"⟩)] = some true ∧
    evictRev [("a", ⟨true, "g"⟩), ("b", ⟨true, "g"⟩)] true "b" (getMultiplier "b")
      (["a", "b"].reverse) 0 = some (["a"], ["b"], true) ∧
    tryPlace ⟨[("a", []), ("b", ["a"])], [], [("a", ⟨true, "g"⟩), ("b", ⟨true, "g"⟩)], [1], false⟩
        "b" [0] [["a"]] ["a"] =
      tryPlace ⟨[("a", []), ("b", ["a"])], [], [("a", ⟨true, "g"⟩), ("b", ⟨true, "g"⟩)], [1], false⟩
        "b" [] (([["a"]].set 0 ["a", "b"]).set 0 (["a"] : Group).reverse)
        (((["a"] : List Username) ++ ["b"]).filter fun p => ¬ (["b"] : List Username).contains p) := by
  refine ⟨by decide, by decide, by decide, by decide, ?_⟩
  exact tryPlace_self_eviction_continues
    ⟨[("a", []), ("b", ["a"])], [], [("a", ⟨true, "g"⟩), ("b", ⟨true, "g"⟩)], [1], false⟩
    "b" 0 [] [["a"]] ["a"] ["a"] ["a", "b"] ⟨true, "g"⟩ ["a"] ["b"]
    (by decide) (by decide) (by decide) (by decide) (by decide) (by decide)

/-! ## Phase A termination bound (C8) -/

theorem phaseALoop_passes_le (C : Ctx) (oracle : Nat → List Nat) (order : List Username) :
    ∀ (budget ctr : Nat) (groups : List Group) (placed : List Username)
      (g' : List Group) (p' : List Username) (passes : Nat),
      phaseALoop C oracle order budget ctr groups placed = some (g', p', passes) →
      passes ≤ budget + 1 := by
  intro budget
  induction budget with
  | zero =>
    intro ctr groups placed g' p' passes h
    simp only [phaseALoop] at h
    cases hp : phaseAPass C oracle order ctr groups placed false with
    | none => rw [hp] at h; exact absurd h (by simp)
    | some r =>
      obtain ⟨ga, pa, upd, ctr', last⟩ := r
      rw [hp] at h
      dsimp only at h
      simp only [Option.some.injEq, Prod.mk.injEq] at h
      omega
  | succ b ih =>
    intro ctr groups placed g' p' passes h
    simp only [phaseALoop] at h
    cases hp : phaseAPass C oracle order ctr groups placed false with
    | none => rw [hp] at h; exact absurd h (by simp)
    | some r =>
      obtain ⟨ga, pa, upd, ctr', last⟩ := r
      rw [hp] at h
      dsimp only at h
      by_cases hc : (last && decide (pa.length < order.length) && upd) = true
      · rw [if_pos hc] at h
        cases hrec : phaseALoop C oracle order b ctr' ga pa with
        | none => rw [hrec] at h; exact absurd h (by simp)
        | some r2 =>
          obtain ⟨g2, p2, passes2⟩ := r2
          rw [hrec] at h
          simp only [Option.some.injEq, Prod.mk.injEq] at h
          have := ih ctr' ga pa g2 p2 passes2 hrec
          omega
      · rw [if_neg hc] at h
        simp only [Option.some.injEq, Prod.mk.injEq] at h
        omega

/--
C8: the Phase-A ranked placement loop, started with the source's full
restart budget (`MOVE_ON_COUNT = 100`), executes at most 101 full passes
over the processing order before it ends: a new pass starts only when the
just-finished pass changed state, not every identity is placed, and the
restart ceiling has not been reached.
-/
theorem phaseALoop_at_most_101_passes (C : Ctx) (oracle : Nat → List Nat)
    (order : List Username) (ctr : Nat) (groups : List Group) (placed : List Username)
    (g' : List Group) (p' : List Username) (passes : Nat)
    (h : phaseALoop C oracle order MOVE_ON_COUNT ctr groups placed = some (g', p', passes)) :
    passes ≤ 101 :=
  phaseALoop_passes_le C oracle order MOVE_ON_COUNT ctr groups placed g' p' passes h

/-! ## No identity is placed twice (C4): supporting lemmas -/

theorem contains_false_not_mem (l : List Username) (a : Username)
    (h : l.contains a = false) : a ∉ l := by
  intro hm
  have : l.contains a = true := by simp [hm]
  rw [h] at this
  exact Bool.noConfusion this

theorem rankEntries_map_fst (preferences : Preferences) (G : Group) :
    ∀ (l : List Username) (i : Nat) (es : List (Username × Nat × Nat)),
      rankEntries preferences G i l = some es → es.map Prod.fst = l
  | [], _, es, h => by
    simp only [rankEntries, Option.some.injEq] at h
    subst h
    rfl
  | u :: rest, i, es, h => by
    simp only [rankEntries] at h
    cases hs : getGUScore preferences G u with
    | none => rw [hs] at h; exact absurd h (by simp)
    | some s =>
      rw [hs] at h
      dsimp only at h
      cases hr : rankEntries preferences G (i + 1) rest with
      | none => rw [hr] at h; exact absurd h (by simp)
      | some es' =>
        rw [hr] at h
        dsimp only at h
        simp only [Option.some.injEq] at h
        subst h
        simp [rankEntries_map_fst preferences G rest (i + 1) es' hr]

/-- Whenever `getGURanking` succeeds, its output is a permutation of the
input group (no hypotheses needed): the scored entries project back to the
group and sorting permutes. -/
theorem getGURanking_some_perm (preferences : Preferences) (group : Group)
    (ranked : List Username) (h : getGURanking preferences group = some ranked) :
    ranked.Perm group := by
  unfold getGURanking at h
  cases hr : rankEntries preferences group 0 group with
  | none => rw [hr] at h; exact absurd h (by simp)
  | some es =>
    rw [hr] at h
    dsimp only at h
    simp only [Option.some.injEq] at h
    subst h
    have := (sortByLe_perm guRankLe es).map Prod.fst
    rw [rankEntries_map_fst preferences group group 0 es hr] at this
    exact this

/-- The three facts the invariant needs about one eviction run: the
remaining members are a sublist of the input, input = remaining + removed
up to permutation, and a self-eviction means the new user is among the
removed. -/
theorem evictRev_spec (users : UserDetails) (targetMale : Bool) (newUser : Username) (need : Nat) :
    ∀ (l : List Username) (acc : Nat) (rem removed : List Username) (selfEv : Bool),
      evictRev users targetMale newUser need l acc = some (rem, removed, selfEv) →
      rem.Sublist l ∧ l.Perm (rem ++ removed) ∧ (selfEv = true → newUser ∈ removed)
  | [], acc, rem, removed, selfEv, h => by
    simp only [evictRev, Option.some.injEq, Prod.mk.injEq] at h
    obtain ⟨h1, h2, h3⟩ := h
    subst h1; subst h2; subst h3
    exact ⟨List.Sublist.refl _, by simp, by simp⟩
  | v :: rest, acc, rem, removed, selfEv, h => by
    simp only [evictRev] at h
    cases hl : List.lookup v users with
    | none => rw [hl] at h; exact absurd h (by simp)
    | some r =>
      rw [hl] at h
      dsimp only at h
      by_cases hg : (r.isMale == targetMale) = true
      · rw [if_pos hg] at h
        by_cases hn : need ≤ acc + getMultiplier v
        · rw [if_pos hn] at h
          simp only [Option.some.injEq, Prod.mk.injEq] at h
          obtain ⟨h1, h2, h3⟩ := h
          subst h1; subst h2; subst h3
          refine ⟨List.sublist_cons_self v rest, (List.perm_append_singleton v rest).symm, ?_⟩
          intro hs
          have : v = newUser := eq_of_beq hs
          subst this
          exact List.mem_singleton.mpr rfl
        · rw [if_neg hn] at h
          cases hrec : evictRev users targetMale newUser need rest (acc + getMultiplier v) with
          | none => rw [hrec] at h; exact absurd h (by simp)
          | some t =>
            obtain ⟨rem', removed', self'⟩ := t
            rw [hrec] at h
            dsimp only at h
            simp only [Option.some.injEq, Prod.mk.injEq] at h
            obtain ⟨h1, h2, h3⟩ := h
            subst h1; subst h2; subst h3
            obtain ⟨ih1, ih2, ih3⟩ :=
              evictRev_spec users targetMale newUser need rest (acc + getMultiplier v)
                rem' removed' self' hrec
            refine ⟨ih1.trans (List.sublist_cons_self v rest), ?_, ?_⟩
            · exact (ih2.cons v).trans List.perm_middle.symm
            · intro hs
              exact List.mem_cons_of_mem v (ih3 hs)
      · rw [if_neg hg] at h
        cases hrec : evictRev users targetMale newUser need rest acc with
        | none => rw [hrec] at h; exact absurd h (by simp)
        | some t =>
          obtain ⟨rem', removed', self'⟩ := t
          rw [hrec] at h
          dsimp only at h
          simp only [Option.some.injEq, Prod.mk.injEq] at h
          obtain ⟨h1, h2, h3⟩ := h
          subst h1; subst h2; subst h3
          obtain ⟨ih1, ih2, ih3⟩ :=
            evictRev_spec users targetMale newUser need rest acc rem' removed' self' hrec
          exact ⟨ih1.cons₂ v, ih2.cons v, ih3⟩

/-- Splitting the flattened group list around an indexed slot: updating
that slot replaces exactly the middle segment. -/
theorem flatten_set_decomp {α : Type} :
    ∀ (L : List (List α)) (i : Nat) (g : List α), L.get? i = some g →
      ∃ A B : List α, L.flatten = A ++ (g ++ B) ∧
        ∀ x : List α, (L.set i x).flatten = A ++ (x ++ B)
  | [], i, g, h => by simp at h
  | G :: rest, 0, g, h => by
    have hG : G = g := by simpa [List.get?] using h
    subst hG
    exact ⟨[], rest.flatten, by simp, fun x => by simp⟩
  | G :: rest, i + 1, g, h => by
    have h' : rest.get? i = some g := by simpa [List.get?] using h
    obtain ⟨A, B, h1, h2⟩ := flatten_set_decomp rest i g h'
    refine ⟨G ++ A, B, ?_, ?_⟩
    · rw [List.flatten_cons, h1, List.append_assoc]
    · intro x
      have hset : (G :: rest).set (i + 1) x = G :: rest.set i x := by simp [List.set]
      rw [hset, List.flatten_cons, h2 x, List.append_assoc]

/-- Replacing the middle segment by a permutation of itself plus one fresh
element preserves `Nodup`. -/
theorem nodup_insert_middle {α : Type} {A g B x : List α} {u : α}
    (hperm : x.Perm (g ++ [u])) (hnd : (A ++ (g ++ B)).Nodup) (hu : u ∉ A ++ (g ++ B)) :
    (A ++ (x ++ B)).Nodup := by
  have h1 : (A ++ (x ++ B)).Perm (u :: (A ++ (g ++ B))) := by
    have s1 : (A ++ (x ++ B)).Perm (A ++ ((g ++ [u]) ++ B)) :=
      List.Perm.append_left A (hperm.append_right B)
    have e1 : A ++ ((g ++ [u]) ++ B) = (A ++ g) ++ (u :: B) := by
      simp [List.append_assoc]
    have s2 : ((A ++ g) ++ (u :: B)).Perm (u :: ((A ++ g) ++ B)) := List.perm_middle
    have e2 : (A ++ g) ++ B = A ++ (g ++ B) := List.append_assoc A g B
    rw [e1] at s1
    rw [e2] at s2
    exact s1.trans s2
  rw [h1.nodup_iff]
  exact List.nodup_cons.mpr ⟨hu, hnd⟩

/-- The ranked-group walk preserves the invariant, for any ranked index
list (hence for every outcome of the randomized ranking): placements
insert a fresh user and re-rank by a permutation, evictions only remove
members (from both the group and the placed list). -/
theorem tryPlace_inv (C : Ctx) (username : Username) :
    ∀ (ranking : List Nat) (groups : List Group) (placed : List Username)
      (g' : List Group) (p' : List Username) (s : Bool),
      tryPlace C username ranking groups placed = some (g', p', s) →
      EngineInv groups placed → username ∉ placed →
      EngineInv g' p'
  | [], groups, placed, g', p', s, h, hInv, _hu => by
    simp only [tryPlace, Option.some.injEq, Prod.mk.injEq] at h
    obtain ⟨h1, h2, _⟩ := h
    subst h1; subst h2
    exact hInv
  | gid :: rest, groups, placed, g', p', s, h, hInv, hu => by
    simp only [tryPlace] at h
    cases hg : groups.get? gid with
    | none => rw [hg] at h; exact absurd h (by simp)
    | some g =>
      rw [hg] at h
      dsimp only at h
      by_cases hconf : canTryJoiningGroup C.antiPreferences g username = true
      case neg =>
        rw [if_pos (by simpa using hconf)] at h
        exact tryPlace_inv C username rest groups placed g' p' s h hInv hu
      case pos =>
        rw [if_neg (by simpa using hconf)] at h
        cases hrank : getGURanking C.preferences (groupWithNew g username) with
        | none => rw [hrank] at h; exact absurd h (by simp)
        | some guRanked =>
          rw [hrank] at h
          dsimp only at h
          cases huser : List.lookup username C.users with
          | none => rw [huser] at h; exact absurd h (by simp)
          | some user =>
            rw [huser] at h
            dsimp only at h
            have hperm : guRanked.Perm (g ++ [username]) :=
              getGURanking_some_perm C.preferences (groupWithNew g username) guRanked hrank
            obtain ⟨hnd, hmem⟩ := hInv
            obtain ⟨A, B, hflat, hset⟩ := flatten_set_decomp groups gid g hg
            have hufresh : username ∉ groups.flatten := fun hx => hu (hmem username hx)
            have hnd1 : ((groups.set gid guRanked).flatten).Nodup := by
              rw [hset]
              exact nodup_insert_middle hperm (hflat ▸ hnd) (hflat ▸ hufresh)
            have hmemflat : ∀ v, v ∈ A ∨ v ∈ g ∨ v ∈ B → v ∈ groups.flatten := by
              intro v hv
              rw [hflat]
              rcases hv with hv | hv | hv
              · exact List.mem_append_left _ hv
              · exact List.mem_append_right _ (List.mem_append_left _ hv)
              · exact List.mem_append_right _ (List.mem_append_right _ hv)
            have hmem1 : ∀ v ∈ (groups.set gid guRanked).flatten, v ∈ placed ++ [username] := by
              intro v hv
              rw [hset] at hv
              rcases List.mem_append.mp hv with hvA | hv2
              · exact List.mem_append_left _ (hmem v (hmemflat v (Or.inl hvA)))
              · rcases List.mem_append.mp hv2 with hvx | hvB
                · rcases List.mem_append.mp (hperm.mem_iff.mp hvx) with hvg | hvu
                  · exact List.mem_append_left _ (hmem v (hmemflat v (Or.inr (Or.inl hvg))))
                  · exact List.mem_append_right _ hvu
                · exact List.mem_append_left _ (hmem v (hmemflat v (Or.inr (Or.inr hvB))))
            cases hmax : hasMaximum guRanked user.isMale (C.groupSizes.get? gid)
                ((C.groupSizes.get? gid).map (· / 2)) C.oneGenderGroups C.users with
            | none => rw [hmax] at h; exact absurd h (by simp)
            | some overflow =>
              rw [hmax] at h
              cases overflow with
              | false =>
                dsimp only at h
                simp only [Option.some.injEq, Prod.mk.injEq] at h
                obtain ⟨h1, h2, _⟩ := h
                subst h1; subst h2
                exact ⟨hnd1, hmem1⟩
              | true =>
                dsimp only at h
                cases hev : evictRev C.users user.isMale username (getMultiplier username)
                    guRanked.reverse 0 with
                | none => rw [hev] at h; exact absurd h (by simp)
                | some t =>
                  obtain ⟨remRev, removed, selfEv⟩ := t
                  rw [hev] at h
                  dsimp only at h
                  obtain ⟨hsubRev, hpermRev, hself⟩ :=
                    evictRev_spec C.users user.isMale username (getMultiplier username)
                      guRanked.reverse 0 remRev removed selfEv hev
                  have hsub2 : remRev.reverse.Sublist guRanked := by
                    have h2 := hsubRev.reverse
                    rwa [List.reverse_reverse] at h2
                  have hset2 : (groups.set gid guRanked).set gid remRev.reverse
                      = groups.set gid remRev.reverse := List.set_set guRanked remRev.reverse groups gid
                  have hnd2 : ((groups.set gid remRev.reverse).flatten).Nodup := by
                    rw [hset]
                    apply List.Nodup.sublist _ (hset guRanked ▸ hnd1)
                    exact (List.Sublist.refl A).append (hsub2.append (List.Sublist.refl B))
                  have hndg : guRanked.Nodup := by
                    have hsubg : guRanked.Sublist ((groups.set gid guRanked).flatten) := by
                      rw [hset]
                      exact (List.sublist_append_left guRanked B).trans
                        (List.sublist_append_right A (guRanked ++ B))
                    exact List.Nodup.sublist hsubg hnd1
                  have hndsplit : (remRev ++ removed).Nodup := by
                    rw [← hpermRev.nodup_iff]
                    exact List.nodup_reverse.mpr hndg
                  have hdisj : ∀ v ∈ remRev, v ∉ removed := by
                    intro v hv
                    exact List.disjoint_left.mp (List.nodup_append.mp hndsplit).2.2 hv
                  have hremsub : ∀ v ∈ removed, v ∈ guRanked := by
                    intro v hv
                    have : v ∈ remRev ++ removed := List.mem_append_right _ hv
                    rw [← hpermRev.mem_iff] at this
                    exact List.mem_reverse.mp this
                  have hmem2 : ∀ v ∈ (groups.set gid remRev.reverse).flatten,
                      v ∈ (placed ++ [username]).filter (fun p => ¬ removed.contains p) := by
                    intro v hv
                    rw [hset] at hv
                    have hvnr : v ∉ removed := by
                      rcases List.mem_append.mp hv with hvA | hv2
                      · intro hvrem
                        rcases List.mem_append.mp (hperm.mem_iff.mp (hremsub v hvrem)) with hvg | hvu
                        · have hndAB := hflat ▸ hnd
                          have := List.disjoint_left.mp (List.nodup_append.mp hndAB).2.2 hvA
                          exact this (List.mem_append_left _ hvg)
                        · have : v = username := List.mem_singleton.mp hvu
                          subst this
                          exact hufresh (hmemflat v (Or.inl hvA))
                      · rcases List.mem_append.mp hv2 with hvx | hvB
                        · intro hvrem
                          exact hdisj v (List.mem_reverse.mp hvx) hvrem
                        · intro hvrem
                          rcases List.mem_append.mp (hperm.mem_iff.mp (hremsub v hvrem)) with hvg | hvu
                          · have hndAB := hflat ▸ hnd
                            have hndgB := (List.nodup_append.mp hndAB).2.1
                            exact List.disjoint_left.mp (List.nodup_append.mp hndgB).2.2 hvg hvB
                          · have : v = username := List.mem_singleton.mp hvu
                            subst this
                            exact hufresh (hmemflat v (Or.inr (Or.inr hvB)))
                    have hvp1 : v ∈ placed ++ [username] := by
                      apply hmem1
                      rw [hset]
                      rcases List.mem_append.mp hv with hvA | hv2
                      · exact List.mem_append_left _ hvA
                      · rcases List.mem_append.mp hv2 with hvx | hvB
                        · exact List.mem_append_right _
                            (List.mem_append_left _ (hsub2.subset hvx))
                        · exact List.mem_append_right _ (List.mem_append_right _ hvB)
                    rw [List.mem_filter]
                    refine ⟨hvp1, ?_⟩
                    have hnc : ¬ (removed.contains v = true) := fun hc => hvnr (by simpa using hc)
                    exact decide_eq_true hnc
                  cases selfEv with
                  | false =>
                    rw [if_neg (by simp)] at h
                    simp only [Option.some.injEq, Prod.mk.injEq] at h
                    obtain ⟨h1, h2, _⟩ := h
                    subst h1; subst h2
                    exact ⟨hset2 ▸ hnd2, hset2 ▸ hmem2⟩
                  | true =>
                    rw [if_pos rfl] at h
                    rw [hset2] at h
                    have husername2 : username ∉
                        (placed ++ [username]).filter (fun p => ¬ removed.contains p) := by
                      intro hmemf
                      have := (List.mem_filter.mp hmemf).2
                      have hured : username ∈ removed := hself rfl
                      have : ¬ (removed.contains username = true) := by simpa using this
                      exact this (by simpa using hured)
                    exact tryPlace_inv C username rest (groups.set gid remRev.reverse)
                      ((placed ++ [username]).filter (fun p => ¬ removed.contains p))
                      g' p' s h ⟨hnd2, hmem2⟩ husername2

/-- One Phase-A pass preserves the invariant. -/
theorem phaseAPass_inv (C : Ctx) (oracle : Nat → List Nat) :
    ∀ (order : List Username) (ctr : Nat) (groups : List Group) (placed : List Username)
      (upd : Bool) (g' : List Group) (p' : List Username) (upd' : Bool) (ctr' : Nat) (last : Bool),
      phaseAPass C oracle order ctr groups placed upd = some (g', p', upd', ctr', last) →
      EngineInv groups placed → EngineInv g' p'
  | [], _, groups, placed, _, g', p', _, _, _, h, hInv => by
    simp only [phaseAPass, Option.some.injEq, Prod.mk.injEq] at h
    obtain ⟨h1, h2, _⟩ := h
    subst h1; subst h2
    exact hInv
  | [u], ctr, groups, placed, upd, g', p', upd', ctr', last, h, hInv => by
    simp only [phaseAPass] at h
    by_cases hc : placed.contains u = true
    · rw [if_pos hc] at h
      simp only [Option.some.injEq, Prod.mk.injEq] at h
      obtain ⟨h1, h2, _⟩ := h
      subst h1; subst h2
      exact hInv
    · rw [if_neg hc] at h
      cases ht : tryPlace C u (oracle ctr) groups placed with
      | none => rw [ht] at h; exact absurd h (by simp)
      | some t =>
        obtain ⟨ga, pa, sa⟩ := t
        rw [ht] at h
        dsimp only at h
        simp only [Option.some.injEq, Prod.mk.injEq] at h
        obtain ⟨h1, h2, _⟩ := h
        subst h1; subst h2
        exact tryPlace_inv C u (oracle ctr) groups placed ga pa sa ht hInv
          (contains_false_not_mem placed u (by simpa using hc))
  | u :: v :: rest, ctr, groups, placed, upd, g', p', upd', ctr', last, h, hInv => by
    simp only [phaseAPass] at h
    by_cases hc : placed.contains u = true
    · rw [if_pos hc] at h
      exact phaseAPass_inv C oracle (v :: rest) ctr groups placed upd
        g' p' upd' ctr' last h hInv
    · rw [if_neg hc] at h
      cases ht : tryPlace C u (oracle ctr) groups placed with
      | none => rw [ht] at h; exact absurd h (by simp)
      | some t =>
        obtain ⟨ga, pa, sa⟩ := t
        rw [ht] at h
        dsimp only at h
        exact phaseAPass_inv C oracle (v :: rest) (ctr + 1) ga pa (upd || sa)
          g' p' upd' ctr' last h
          (tryPlace_inv C u (oracle ctr) groups placed ga pa sa ht hInv
            (contains_false_not_mem placed u (by simpa using hc)))

/-- The whole Phase-A loop preserves the invariant. -/
theorem phaseALoop_inv (C : Ctx) (oracle : Nat → List Nat) (order : List Username) :
    ∀ (budget ctr : Nat) (groups : List Group) (placed : List Username)
      (g' : List Group) (p' : List Username) (passes : Nat),
      phaseALoop C oracle order budget ctr groups placed = some (g', p', passes) →
      EngineInv groups placed → EngineInv g' p' := by
  intro budget
  induction budget with
  | zero =>
    intro ctr groups placed g' p' passes h hInv
    simp only [phaseALoop] at h
    cases hp : phaseAPass C oracle order ctr groups placed false with
    | none => rw [hp] at h; exact absurd h (by simp)
    | some r =>
      obtain ⟨ga, pa, upd, ctr', last⟩ := r
      rw [hp] at h
      dsimp only at h
      simp only [Option.some.injEq, Prod.mk.injEq] at h
      obtain ⟨h1, h2, _⟩ := h
      subst h1; subst h2
      exact phaseAPass_inv C oracle order ctr groups placed false ga pa upd ctr' last hp hInv
  | succ b ih =>
    intro ctr groups placed g' p' passes h hInv
    simp only [phaseALoop] at h
    cases hp : phaseAPass C oracle order ctr groups placed false with
    | none => rw [hp] at h; exact absurd h (by simp)
    | some r =>
      obtain ⟨ga, pa, upd, ctr', last⟩ := r
      rw [hp] at h
      dsimp only at h
      have hInv1 : EngineInv ga pa :=
        phaseAPass_inv C oracle order ctr groups placed false ga pa upd ctr' last hp hInv
      by_cases hcond : (last && decide (pa.length < order.length) && upd) = true
      · rw [if_pos hcond] at h
        cases hrec : phaseALoop C oracle order b ctr' ga pa with
        | none => rw [hrec] at h; exact absurd h (by simp)
        | some r2 =>
          obtain ⟨g2, p2, passes2⟩ := r2
          rw [hrec] at h
          dsimp only at h
          simp only [Option.some.injEq, Prod.mk.injEq] at h
          obtain ⟨h1, h2, _⟩ := h
          subst h1; subst h2
          exact ih ctr' ga pa g2 p2 passes2 hrec hInv1
      · rw [if_neg hcond] at h
        simp only [Option.some.injEq, Prod.mk.injEq] at h
        obtain ⟨h1, h2, _⟩ := h
        subst h1; subst h2
        exact hInv1

/-- One Phase-B scan ends in one of two ways: no group accepted the
candidate, or exactly one slot got the candidate appended. -/
theorem phaseBScan_shape (C : Ctx) (u : Username) (sortedIdx : List Nat) (len : Nat) :
    ∀ (js : List Nat) (groups groups' : List Group),
      phaseBScan C u sortedIdx len js groups = some groups' →
      groups' = groups ∨
        ∃ gidx g, groups.get? gidx = some g ∧ groups' = groups.set gidx (g ++ [u])
  | [], groups, groups', h => by
    simp only [phaseBScan, Option.some.injEq] at h
    exact Or.inl h.symm
  | j :: js, groups, groups', h => by
    simp only [phaseBScan] at h
    cases hsi : sortedIdx.get? (j % len) with
    | none => rw [hsi] at h; exact absurd h (by simp)
    | some gidx =>
      rw [hsi] at h
      dsimp only at h
      cases hgg : groups.get? gidx with
      | none => rw [hgg] at h; exact absurd h (by simp)
      | some g =>
        rw [hgg] at h
        dsimp only at h
        by_cases hc : canTryJoiningGroup C.antiPreferences g u = true
        · rw [if_neg (by simpa using hc)] at h
          cases hl : List.lookup u C.users with
          | none => rw [hl] at h; exact absurd h (by simp)
          | some user =>
            rw [hl] at h
            dsimp only at h
            cases hm : hasMaximum g user.isMale
                (if j < 2 * len then C.groupSizes.get? j else none)
                (if j < len then (C.groupSizes.get? j).map (· / 2) else none)
                C.oneGenderGroups C.users with
            | none => rw [hm] at h; exact absurd h (by simp)
            | some overflow =>
              rw [hm] at h
              cases overflow with
              | true =>
                dsimp only at h
                exact phaseBScan_shape C u sortedIdx len js groups groups' h
              | false =>
                dsimp only at h
                simp only [Option.some.injEq] at h
                exact Or.inr ⟨gidx, g, hgg, h.symm⟩
        · rw [if_pos (by simpa using hc)] at h
          exact phaseBScan_shape C u sortedIdx len js groups groups' h

/-- Phase B keeps the flattened group list duplicate-free, given that the
universe list it walks has no duplicate keys. -/
theorem phaseB_nodup (C : Ctx) (placed : List Username) :
    ∀ (toProcess : List Username) (groups groups' : List Group),
      phaseB C placed toProcess groups = some groups' →
      toProcess.Nodup →
      groups.flatten.Nodup →
      (∀ v ∈ groups.flatten, v ∈ placed ∨ v ∉ toProcess) →
      groups'.flatten.Nodup
  | [], groups, groups', h, _, hnd, _ => by
    simp only [phaseB, Option.some.injEq] at h
    exact h ▸ hnd
  | u :: rest, groups, groups', h, hndP, hnd, hmem => by
    simp only [phaseB] at h
    by_cases hc : placed.contains u = true
    · rw [if_pos hc] at h
      exact phaseB_nodup C placed rest groups groups' h (List.Nodup.of_cons hndP) hnd
        (fun v hv => (hmem v hv).imp_right fun hn hr => hn (List.mem_cons_of_mem u hr))
    · rw [if_neg hc] at h
      cases hscan : phaseBScan C u (phaseBSortedIndices C.preferences u groups C.groupSizes)
          (phaseBSortedIndices C.preferences u groups C.groupSizes).length
          (List.range (3 * (phaseBSortedIndices C.preferences u groups C.groupSizes).length))
          groups with
      | none => rw [hscan] at h; exact absurd h (by simp)
      | some groups2 =>
        rw [hscan] at h
        dsimp only at h
        rcases phaseBScan_shape C u _ _ _ groups groups2 hscan with heq | ⟨gidx, g, hgg, heq⟩
        · rw [heq] at h
          exact phaseB_nodup C placed rest groups groups' h (List.Nodup.of_cons hndP) hnd
            (fun v hv => (hmem v hv).imp_right fun hn hr => hn (List.mem_cons_of_mem u hr))
        · subst heq
          have hunp : u ∉ placed := contains_false_not_mem placed u (by simpa using hc)
          have hufresh : u ∉ groups.flatten := by
            intro hx
            rcases hmem u hx with hp | hn
            · exact hunp hp
            · exact hn (List.mem_cons_self u rest)
          obtain ⟨A, B, hflat, hset⟩ := flatten_set_decomp groups gidx g hgg
          have hnd2 : ((groups.set gidx (g ++ [u])).flatten).Nodup := by
            rw [hset]
            exact nodup_insert_middle (List.Perm.refl _) (hflat ▸ hnd) (hflat ▸ hufresh)
          apply phaseB_nodup C placed rest _ groups' h (List.Nodup.of_cons hndP) hnd2
          intro v hv
          rw [hset] at hv
          rcases List.mem_append.mp hv with hvA | hv2
          · refine (hmem v (by rw [hflat]; exact List.mem_append_left _ hvA)).imp_right ?_
            exact fun hn hr => hn (List.mem_cons_of_mem u hr)
          · rcases List.mem_append.mp hv2 with hvg | hvB
            · rcases List.mem_append.mp hvg with hvg' | hvu
              · refine (hmem v (by
                  rw [hflat]
                  exact List.mem_append_right _ (List.mem_append_left _ hvg'))).imp_right ?_
                exact fun hn hr => hn (List.mem_cons_of_mem u hr)
              · have : v = u := List.mem_singleton.mp hvu
                subst this
                exact Or.inr (List.nodup_cons.mp hndP).1
            · refine (hmem v (by
                rw [hflat]
                exact List.mem_append_right _ (List.mem_append_right _ hvB))).imp_right ?_
              exact fun hn hr => hn (List.mem_cons_of_mem u hr)

/-- A duplicate-free flattening means each group is duplicate-free and no
element sits in two distinct slots. -/
theorem flatten_nodup_parts {α : Type} (L : List (List α)) (h : L.flatten.Nodup) :
    (∀ g ∈ L, g.Nodup) ∧
    ∀ (i j : Nat) (hi : i < L.length) (hj : j < L.length) (u : α),
      u ∈ L.get ⟨i, hi⟩ → u ∈ L.get ⟨j, hj⟩ → i = j := by
  obtain ⟨hall, hpw⟩ := List.nodup_flatten.mp h
  refine ⟨hall, ?_⟩
  intro i j hi hj u hui huj
  by_contra hne
  rcases Nat.lt_or_ge i j with hlt | hge
  · exact (List.pairwise_iff_get.mp hpw ⟨i, hi⟩ ⟨j, hj⟩ hlt) hui huj
  · have hlt : j < i := by omega
    exact (List.pairwise_iff_get.mp hpw ⟨j, hj⟩ ⟨i, hi⟩ hlt) huj hui

/--
C4: for every successful trial of the single-trial engine (Phase A with
any processing order and any ranking outcomes, followed by Phase B over a
duplicate-free user-map key list), every identity appears in at most one
group of the result and no identity appears twice within a group.
-/
theorem run_no_duplicates (C : Ctx) (userOrder : List Username) (oracle : Nat → List Nat)
    (res : RunResult)
    (husers : (C.users.map Prod.fst).Nodup)
    (hrun : run C userOrder oracle = some res) :
    (∀ g ∈ res.groups, g.Nodup) ∧
    ∀ (i j : Nat) (hi : i < res.groups.length) (hj : j < res.groups.length) (u : Username),
      u ∈ res.groups.get ⟨i, hi⟩ → u ∈ res.groups.get ⟨j, hj⟩ → i = j := by
  simp only [run] at hrun
  cases hA : phaseALoop C oracle userOrder MOVE_ON_COUNT 0
      (C.groupSizes.map fun _ => ([] : Group)) [] with
  | none => rw [hA] at hrun; exact absurd hrun (by simp)
  | some t =>
    obtain ⟨g1, placed1, passes⟩ := t
    rw [hA] at hrun
    dsimp only at hrun
    cases hB : phaseB C placed1 (C.users.map Prod.fst) g1 with
    | none => rw [hB] at hrun; exact absurd hrun (by simp)
    | some g2 =>
      rw [hB] at hrun
      dsimp only at hrun
      simp only [Option.some.injEq] at hrun
      subst hrun
      have hflat0 : ((C.groupSizes.map fun _ => ([] : Group)).flatten) = [] := by
        induction C.groupSizes with
        | nil => rfl
        | cons x xs ih => simp [ih]
      have hInv0 : EngineInv (C.groupSizes.map fun _ => ([] : Group)) [] := by
        constructor
        · rw [hflat0]; exact List.nodup_nil
        · intro v hv; rw [hflat0] at hv; exact absurd hv (List.not_mem_nil v)
      have hInv1 : EngineInv g1 placed1 :=
        phaseALoop_inv C oracle userOrder MOVE_ON_COUNT 0 _ [] g1 placed1 passes hA hInv0
      have hnd2 : g2.flatten.Nodup :=
        phaseB_nodup C placed1 (C.users.map Prod.fst) g1 g2 hB husers hInv1.1
          (fun v hv => Or.inl (hInv1.2 v hv))
      exact flatten_nodup_parts g2 hnd2

/--
C4 (witness): the concrete trial computed by the engine on a two-user
universe satisfies both no-duplicate conclusions.
-/
theorem run_no_duplicates_witness :
    (∀ g ∈ ([["a", "b"]] : List Group), g.Nodup) ∧
    ∀ (i j : Nat) (hi : i < ([["a", "b"]] : List Group).length)
      (hj : j < ([["a", "b"]] : List Group).length) (u : Username),
      u ∈ ([["a", "b"]] : List Group).get ⟨i, hi⟩ →
      u ∈ ([["a", "b"]] : List Group).get ⟨j, hj⟩ → i = j :=
  run_no_duplicates
    ⟨[("a", ["b"]), ("b", ["a"])], [], [("a", ⟨true, "g"⟩), ("b", ⟨true, "g"⟩)], [2], false⟩
    ["a", "b"] (fun _ => [0])
    ⟨[["a", "b"]], [("a", ["b"]), ("b", ["a"])], [2], 1⟩
    (by decide) (by decide)

/--
C8 (witness): a concrete Phase-A execution (which restarts once and ends
after 2 passes) is within the 101-pass bound.
-/
theorem phaseALoop_at_most_101_passes_witness :
    phaseALoop ⟨[("a", ["b"]), ("b", ["a"])], [], [("a", ⟨true, "g"⟩), ("b", ⟨true, "g"⟩)], [2], false⟩
        (fun _ => [0]) ["a", "b"] MOVE_ON_COUNT 0 [[]] [] = some ([["a"]], ["a"], 2) ∧
    (2 : Nat) ≤ 101 :=
  ⟨by decide, phaseALoop_at_most_101_passes
    ⟨[("a", ["b"]), ("b", ["a"])], [], [("a", ⟨true, "g"⟩), ("b", ⟨true, "g"⟩)], [2], false⟩
    (fun _ => [0]) ["a", "b"] 0 [[]] [] [["a"]] ["a"] 2 (by decide)⟩

end Outie
